import Mathlib

/-!
Verification development for the AI Employee Vault repository
(scripts/base_watcher.py, scripts/filesystem_watcher.py, scripts/orchestrator.py).

The Python source is shallowly embedded: directory listings become lists of
entry records, the persisted hash dictionary becomes a function from path
strings to optional hash strings, and each loop of the source becomes a
structural recursion or fold over the corresponding list.
-/

/-! ## Filesystem watcher: data model

One directory entry of the monitored drop folder, as observed by
FileSystemWatcher.check_for_updates.  The fields record exactly what the
Python code can observe about the entry: its full path string, its base
name, its extension, whether it is a regular file, the result of
_calculate_hash (the empty string when hashing raised an exception, as in
the source), whether read_text succeeds, the text content, the byte size,
and the modification time.  The modification time is carried so that
independence from it can be stated and proved. -/
structure Entry where
  path : String
  name : String
  suffix : String
  is_file : Bool
  md5_hash : String
  read_ok : Bool
  text : String
  size : Nat
  mtime : Nat
deriving DecidableEq, Repr

/-- One element of the list returned by check_for_updates, mirroring the
dictionary literal built at filesystem_watcher.py lines 178 to 186. -/
structure ChangeRec where
  file_path : String
  file_name : String
  file_size : Nat
  file_type : String
  hash : String
  priority : String
  content_preview : String
deriving DecidableEq, Repr

/-- Persisted fingerprint dictionary self.file_hashes, as a lookup function
(Python dict.get returns None for a missing key). -/
def HashStore : Type := String → Option String

/-- Dictionary assignment self.file_hashes[k] = v. -/
def store_set (m : HashStore) (k v : String) : HashStore :=
  fun x => if x = k then some v else m x

/-! ## Priority classification (filesystem_watcher.py lines 61 to 65 and 112 to 135) -/
def priority_keywords_high : List String :=
  ["urgent", "asap", "emergency", "important", "priority"]

def priority_keywords_medium : List String :=
  ["invoice", "payment", "deadline", "review"]

def priority_keywords_low : List String :=
  ["note", "reference", "info", "FYI"]

/-- Boolean test that the first list is an initial segment of the second. -/
def prefixOfB : List Char → List Char → Bool
  | [], _ => true
  | _ :: _, [] => false
  | a :: as, b :: bs => a == b && prefixOfB as bs

/-- Boolean test that pat occurs as a contiguous sublist of the text. -/
def substrB (pat : List Char) : List Char → Bool
  | [] => pat.isEmpty
  | c :: rest => prefixOfB pat (c :: rest) || substrB pat rest

/-- Python substring test, pat in text. -/
def strContains (text pat : String) : Bool :=
  substrB pat.toList text.toList

/-- Python str.lower, modelled over the ASCII range (Char.toLower), which
agrees with Python on all keywords and test inputs used here. -/
def lowerStr (s : String) : String :=
  String.mk (s.toList.map Char.toLower)

/-- FileSystemWatcher._detect_priority: lowercase the filename joined with
the content by a space, return high on the first high keyword found, then
medium on the first medium keyword, else low.  The low keyword list is
never consulted by the source. -/
def detect_priority (filename content : String) : String :=
  let text := lowerStr (filename ++ " " ++ content)
  if priority_keywords_high.any (fun k => strContains text k) then "high"
  else if priority_keywords_medium.any (fun k => strContains text k) then "medium"
  else "low"

/-- Modelled from the spec: priority classification as a case insensitive
substring match of filename plus preview against three ordered keyword
tiers, the first tier containing any matching keyword wins, and no match
defaults to low.  Written from the spec words, for comparison with
detect_priority which is written from the source. -/
def spec_priority (filename content : String) : String :=
  let text := lowerStr (filename ++ " " ++ content)
  if priority_keywords_high.any (fun k => strContains text (lowerStr k)) then "high"
  else if priority_keywords_medium.any (fun k => strContains text (lowerStr k)) then "medium"
  else if priority_keywords_low.any (fun k => strContains text (lowerStr k)) then "low"
  else "low"

/-! ## Change detection (filesystem_watcher.py lines 137 to 197) -/
/-- Python str.startswith for one leading character. -/
def startsWithDot (s : String) : Bool :=
  match s.toList with
  | [] => false
  | c :: _ => c == '.'

/-- First n characters of a string, Python slicing s[:n]. -/
def takeStr (n : Nat) (s : String) : String :=
  String.mk (s.toList.take n)

/-- Content reading step of check_for_updates (lines 167 to 173): for a
fixed allow list of text extensions read up to the first 1000 characters;
a read failure or any other extension yields the empty string. -/
def read_content (e : Entry) : String :=
  if (e.suffix == ".txt" || e.suffix == ".md" || e.suffix == ".json"
      || e.suffix == ".csv" || e.suffix == ".log") && e.read_ok then
    takeStr 1000 e.text
  else ""

/-- Change record built at lines 178 to 186 for one detected entry. -/
def mkChangeRec (e : Entry) : ChangeRec :=
  { file_path := e.path
    file_name := e.name
    file_size := e.size
    file_type := e.suffix
    hash := e.md5_hash
    priority := detect_priority e.name (read_content e)
    content_preview := takeStr 200 (read_content e) }

/-- Body of the scan loop of check_for_updates over the regular files of
the drop folder: skip hidden names and .tmp files, skip entries whose hash
computation failed (empty hash string), emit a change record and update
the stored fingerprint when no fingerprint is stored or it differs. -/
def scan_files : List Entry → HashStore → List ChangeRec × HashStore
  | [], m => ([], m)
  | e :: es, m =>
    if startsWithDot e.name || (e.suffix == ".tmp") then scan_files es m
    else if e.md5_hash == "" then scan_files es m
    else if m e.path != some e.md5_hash then
      (mkChangeRec e :: (scan_files es (store_set m e.path e.md5_hash)).1,
       (scan_files es (store_set m e.path e.md5_hash)).2)
    else scan_files es m

/-- FileSystemWatcher.check_for_updates: restrict the directory listing to
regular files, then run the scan loop against the stored fingerprints.
Returns the emitted change records and the updated fingerprint store. -/
def check_for_updates (dir : List Entry) (m : HashStore) : List ChangeRec × HashStore :=
  scan_files (dir.filter (fun f => f.is_file)) m

/-- Update of only the modification time of an entry. -/
def set_mtime (g : Nat → Nat) (e : Entry) : Entry :=
  { e with mtime := g e.mtime }

/-- Freshness of a store with respect to a list of entries: every entry
that survives the skip guards already has its current hash on record. -/
def fresh (m : HashStore) (es : List Entry) : Prop :=
  ∀ e ∈ es, (startsWithDot e.name || (e.suffix == ".tmp")) = false →
    e.md5_hash ≠ "" → m e.path = some e.md5_hash

/-! ## Witness inputs for the watcher claims -/
def wEntryA : Entry :=
  { path := "/drop/a.txt", name := "a.txt", suffix := ".txt", is_file := true,
    md5_hash := "aaaa", read_ok := true, text := "please review asap", size := 18, mtime := 5 }

def wEntryB : Entry :=
  { path := "/drop/b.bin", name := "b.bin", suffix := ".bin", is_file := true,
    md5_hash := "bbbb", read_ok := false, text := "", size := 4, mtime := 6 }

def emptyStore : HashStore := fun _ => none

/-! ## Orchestrator: data model (orchestrator.py)

An ActionRecord document is abstracted to its name and the value of the
status header line; process_with_claude edits exactly that line (the
replace of status pending by status in_progress at lines 353 to 357). -/
structure MDFile where
  name : String
  status : String
deriving DecidableEq, Repr

/-- Daily log entry written by Orchestrator._log_action, lines 227 to 233. -/
structure LogEntry where
  timestamp : String
  action_type : String
  actor : String
  parameters : List (String × String)
  result : String
deriving DecidableEq, Repr

/-- Log entry literal of _log_action with the fixed actor orchestrator. -/
def log_entry (now action_type : String) (details : List (String × String))
    (result : String) : LogEntry :=
  { timestamp := now, action_type := action_type, actor := "orchestrator",
    parameters := details, result := result }

/-- Orchestrator._log_action (lines 205 to 242): read the daily log file
(a missing or unparsable file yields the empty list), append one entry,
and rewrite the whole sequence.  The first argument is the parse result of
the existing daily file. -/
def log_action (existing : Option (List LogEntry)) (now action_type : String)
    (details : List (String × String)) (result : String) : List LogEntry :=
  (match existing with
   | some logs => logs
   | none => []) ++ [log_entry now action_type details result]

/-- Outcome of Orchestrator.process_with_claude on one action file. -/
structure ProcResult where
  ok : Bool
  file : MDFile
  new_plans : List String
  new_logs : List LogEntry
deriving DecidableEq, Repr

/-- Status update of lines 353 to 357: replace status pending by status
in_progress when present, otherwise leave the document alone. -/
def mark_in_progress (f : MDFile) : MDFile :=
  if f.status = "pending" then { f with status := "in_progress" } else f

/-- Orchestrator.process_with_claude (lines 274 to 366).  claude_found
models the which or where lookup of the external command; step_ok models
absence of an exception in the processing body.  On a missing tool the
record is untouched and a skip is logged; on an exception the record is
untouched and an error is logged; otherwise a plan file is created, the
status header is advanced, and success is logged. -/
def process_with_claude (claude_found step_ok : Bool) (now : String)
    (f : MDFile) : ProcResult :=
  if claude_found = false then
    { ok := false, file := f, new_plans := [],
      new_logs := [log_entry now "claude_process" [("file", f.name)]
        "skipped_claude_not_found"] }
  else if step_ok = false then
    { ok := false, file := f, new_plans := [],
      new_logs := [log_entry now "claude_process"
        [("file", f.name), ("error", "exception")] "error"] }
  else
    { ok := true, file := mark_in_progress f,
      new_plans := ["PLAN_" ++ f.name ++ "_" ++ now],
      new_logs := [log_entry now "claude_process"
        [("file", f.name), ("plan", "PLAN_" ++ f.name ++ "_" ++ now)] "success"] }

/-- Vault state seen by the orchestrator: the record folders (each a list
of records or record names), the processed file set and the daily log.
The needs_action list is kept in the modification time order used by
get_pending_files. -/
structure OrchState where
  needs_action : List MDFile
  plans : List String
  approved : List String
  rejected : List String
  done : List String
  processed_files : List String
  logs : List LogEntry
deriving DecidableEq, Repr

/-- Orchestrator.move_to_done (lines 368 to 381): shutil.move of the named
record from the approved folder into the done folder (overwriting a
same named file there), logging the move; a failing move (source absent)
is caught and leaves the state alone. -/
def move_to_done (now : String) (st : OrchState) (n : String) : OrchState :=
  if n ∈ st.approved then
    { st with approved := st.approved.erase n,
              done := if n ∈ st.done then st.done else st.done ++ [n],
              logs := st.logs ++ [log_entry now "move_to_done" [("file", n)] "success"] }
  else st

/-- One iteration of the pending loop of Orchestrator.run (lines 402 to
411): skip records already in the processed set, otherwise process with
claude, write back the possibly updated record, collect new plan files
and log entries, and on success add the record path to the processed set. -/
def cycle_step (claude_found : Bool) (step_ok : String → Bool) (now : String)
    (st : OrchState) (f : MDFile) : OrchState :=
  if f.name ∈ st.processed_files then st
  else
    let r := process_with_claude claude_found (step_ok f.name) now f
    let st1 : OrchState :=
      { st with
        needs_action := st.needs_action.map (fun g => if g.name = f.name then r.file else g),
        plans := st.plans ++ r.new_plans,
        logs := st.logs ++ r.new_logs }
    if r.ok then { st1 with processed_files := st1.processed_files ++ [f.name] } else st1

/-- One orchestration cycle of Orchestrator.run (lines 391 to 422): walk
the snapshot of pending records through cycle_step, then relocate every
record of the approved folder snapshot to the done folder.  The dashboard
refresh and the state save have no effect on the folders. -/
def run_cycle (claude_found : Bool) (step_ok : String → Bool) (now : String)
    (s : OrchState) : OrchState :=
  let s1 := s.needs_action.foldl (cycle_step claude_found step_ok now) s
  s1.approved.foldl (move_to_done now) s1

/-- Names of the records of the landing folder. -/
def landing_names (st : OrchState) : List String :=
  st.needs_action.map MDFile.name

/-- Names of all records across the workflow folders. -/
def all_names (st : OrchState) : List String :=
  landing_names st ++ st.approved ++ st.rejected ++ st.done

/-- Location invariant: every record name occurs in exactly one workflow
folder, and only once there. -/
def OrchInv (st : OrchState) : Prop :=
  (all_names st).Nodup

/-- Workflow position of a name, as a rank increasing along the workflow:
zero for landing, two for approved, three for rejected, four for done. -/
def loc_rank (st : OrchState) (n : String) : Option Nat :=
  if n ∈ landing_names st then some 0
  else if n ∈ st.approved then some 2
  else if n ∈ st.rejected then some 3
  else if n ∈ st.done then some 4
  else none

/-! ## Witness inputs for the orchestrator claims -/
def wRecA : MDFile := { name := "FILE_a_1.md", status := "pending" }

def wState : OrchState :=
  { needs_action := [wRecA], plans := [], approved := ["APP_1.md"], rejected := ["REJ_1.md"],
    done := ["DONE_1.md"], processed_files := [], logs := [] }

/-! ## Daily log (claim C6) -/
def wLogs : List LogEntry :=
  [log_entry "t1" "move_to_done" [("file", "x.md")] "success"]

/-! ## Persistent set store (claim C7)

The three save paths of the persistent stores, BaseWatcher._save_state,
Orchestrator._save_state and FileSystemWatcher._save_file_hashes: the
files live under vault/scripts, which none of the save functions creates;
a Python open for writing raises when the enclosing directory is absent,
and each except branch swallows the error. -/
/-- Stored document of a persistent store: the processed set stores of
BaseWatcher._save_state and Orchestrator._save_state serialize the full
set together with a last_updated timestamp (orchestrator.py lines 112 to
115), while the fingerprint store of FileSystemWatcher._save_file_hashes
(lines 86 to 88) dumps the raw path to hash dictionary with no timestamp
field. -/
inductive VaultDoc where
  | state (processed_files : List String) (last_updated : String)
  | hashes (file_hashes : List (String × String))
deriving DecidableEq, Repr

/-- Whether a stored document carries a last_updated timestamp field. -/
def has_timestamp : VaultDoc → Bool
  | .state _ _ => true
  | .hashes _ => false

/-- Filesystem fragment: the set of existing directories and the stored
documents by path. -/
structure FS where
  dirs : List String
  files : List (String × VaultDoc)
deriving DecidableEq, Repr

def assoc_set (files : List (String × VaultDoc)) (k : String) (v : VaultDoc) :
    List (String × VaultDoc) :=
  match files with
  | [] => [(k, v)]
  | (k2, v2) :: rest => if k2 = k then (k, v) :: rest else (k2, v2) :: assoc_set rest k v

def assoc_get : List (String × VaultDoc) → String → Option VaultDoc
  | [], _ => none
  | (k2, v) :: rest, k => if k2 = k then some v else assoc_get rest k

/-- Python open of a path for writing followed by json.dump: succeeds and
replaces any previous content exactly when the enclosing directory exists;
with the directory absent the open raises and nothing is written. -/
def write_file (fs : FS) (dir fname : String) (doc : VaultDoc) : Option FS :=
  if dir ∈ fs.dirs then
    some { fs with files := assoc_set fs.files (dir ++ "/" ++ fname) doc }
  else none

/-- Orchestrator._save_state (lines 108 to 119), equally the shape of
BaseWatcher._save_state (lines 85 to 96): serialize the full processed set
with a last_updated timestamp to vault/scripts/orchestrator_state.json;
the try block catches every failure, logs it and returns, so the caller
never sees an exception.  The Bool records whether the write happened. -/
def save_state (fs : FS) (vault : String) (processed : List String) (now : String) :
    FS × Bool :=
  match write_file fs (vault ++ "/scripts") "orchestrator_state.json"
      (VaultDoc.state processed now) with
  | some fs2 => (fs2, true)
  | none => (fs, false)

/-- FileSystemWatcher._save_file_hashes (lines 82 to 90): json.dump of the
raw fingerprint dictionary, with no last_updated field, into
vault/scripts/filesystem_watcher_hashes.json; the except branch catches
and logs every failure, so the caller never sees an exception. -/
def save_file_hashes (fs : FS) (vault : String) (m : List (String × String)) :
    FS × Bool :=
  match write_file fs (vault ++ "/scripts") "filesystem_watcher_hashes.json"
      (VaultDoc.hashes m) with
  | some fs2 => (fs2, true)
  | none => (fs, false)

def wFS : FS := { dirs := ["/vault/scripts"], files := [] }

/-! ## Dashboard rendering (claims C8 and C10) -/
/-- Directory entry of a vault folder as seen by
Orchestrator._count_files_in_folder. -/
structure FolderEntry where
  name : String
  suffix : String
  is_file : Bool
deriving DecidableEq, Repr

/-- Orchestrator._count_files_in_folder (lines 121 to 126): the number of
regular files with the md extension. -/
def count_files_in_folder (l : List FolderEntry) : Nat :=
  (l.filter (fun f => f.suffix == ".md" && f.is_file)).length

/-- Python str.replace, by fuel over the character list: scan left to
right and replace non overlapping occurrences of the pattern.  The fuel
equals the text length, which the scan never exceeds; the placeholders
replaced here are all nonempty, which keeps this equal to Python also at
the empty text. -/
def replaceFuel : Nat → List Char → List Char → List Char → List Char
  | 0, s, _, _ => s
  | _ + 1, [], _, _ => []
  | n + 1, c :: cs, pat, rep =>
    if pat ≠ [] ∧ prefixOfB pat (c :: cs) = true then
      rep ++ replaceFuel n (List.drop pat.length (c :: cs)) pat rep
    else c :: replaceFuel n cs pat rep

def pyReplace (s pat rep : String) : String :=
  String.mk (replaceFuel s.toList.length s.toList pat.toList rep.toList)

/-- Replacement table of Orchestrator.update_dashboard (lines 179 to 192),
in source order.  The two completed counts and the timestamp strings are
clock derived and passed in as values; the status values are modelled
without the leading colored marker glyph of the source literal, on which
nothing here depends. -/
def dashboard_replacements (running : Bool)
    (inbox needs_action plans approved : List FolderEntry)
    (completed_today completed_this_week : Nat)
    (now_str now_iso : String) : List (String × String) :=
  [("\x7b\x7bpending_count\x7d\x7d", toString (count_files_in_folder needs_action)),
   ("\x7b\x7bactive_plans_count\x7d\x7d", toString (count_files_in_folder plans)),
   ("\x7b\x7bcompleted_today\x7d\x7d", toString completed_today),
   ("\x7b\x7bcompleted_this_week\x7d\x7d", toString completed_this_week),
   ("\x7b\x7binbox_count\x7d\x7d", toString (count_files_in_folder inbox)),
   ("\x7b\x7bneeds_action_count\x7d\x7d", toString (count_files_in_folder needs_action)),
   ("\x7b\x7bpending_approval_count\x7d\x7d", toString (count_files_in_folder approved)),
   ("\x7b\x7bapproved_count\x7d\x7d", toString (count_files_in_folder approved)),
   ("\x7b\x7bwatcher_status\x7d\x7d", if running then "Running" else "Stopped"),
   ("\x7b\x7borchestrator_status\x7d\x7d", if running then "Running" else "Stopped"),
   ("\x7b\x7blast_sync\x7d\x7d", now_str),
   ("\x7b\x7btimestamp\x7d\x7d", now_iso)]

/-- Substitution loop at lines 194 to 195: fold str.replace over the
replacement table. -/
def apply_replacements (content : String) (reps : List (String × String)) : String :=
  reps.foldl (fun c pr => pyReplace c pr.1 pr.2) content

/-- Orchestrator.update_dashboard (lines 157 to 203): with the dashboard
template missing the function logs a warning and returns without writing;
otherwise every replacement is applied to the template text and the
result written back. -/
def update_dashboard (template : Option String) (running : Bool)
    (inbox needs_action plans approved : List FolderEntry)
    (completed_today completed_this_week : Nat)
    (now_str now_iso : String) : Option String :=
  match template with
  | none => none
  | some content =>
      some (apply_replacements content
        (dashboard_replacements running inbox needs_action plans approved
          completed_today completed_this_week now_str now_iso))

def wMd (n : String) : FolderEntry := { name := n, suffix := ".md", is_file := true }

def wNeedsAction3 : List FolderEntry := [wMd "a.md", wMd "b.md", wMd "c.md"]

def wTemplate : String :=
  "Pending: \x7b\x7bpending_count\x7d\x7d of \x7b\x7bpending_count\x7d\x7d; \x7b\x7bunknown_key\x7d\x7d"

/-! ## Filename generation (claim C9)

The sanitizer of BaseWatcher._generate_filename keeps a character when
c.isalnum() holds; Python str.isalnum is Unicode aware, defined by the
Unicode character tables.  The embedding therefore takes the isalnum
predicate as an oracle parameter: the general theorems quantify over the
oracle (so they hold in particular for the true Python predicate), and
concrete inputs are evaluated at a table that is exact on the code points
they use. -/
/-- Python str.isalnum restricted to code points at most 0xFF, where this
table is exact: digits, ASCII letters, and the Latin-1 ordinal indicators
(0xAA, 0xBA), superscripts (0xB2, 0xB3, 0xB9), micro sign (0xB5), vulgar
fractions (0xBC to 0xBE) and letters (0xC0 to 0xFF except the two
operator signs 0xD7 and 0xF7).  Above 0xFF Python accepts further
alphanumeric characters that this table does not list, so the table is
only ever applied to Latin-1 inputs here; the universally quantified
statements take the isalnum predicate as a parameter instead. -/
def pyIsAlnumLatin1 (c : Char) : Bool :=
  decide ((48 ≤ c.toNat ∧ c.toNat ≤ 57) ∨ (65 ≤ c.toNat ∧ c.toNat ≤ 90) ∨
    (97 ≤ c.toNat ∧ c.toNat ≤ 122) ∨
    c.toNat = 0xAA ∨ c.toNat = 0xB2 ∨ c.toNat = 0xB3 ∨ c.toNat = 0xB5 ∨
    c.toNat = 0xB9 ∨ c.toNat = 0xBA ∨
    (0xBC ≤ c.toNat ∧ c.toNat ≤ 0xBE) ∨
    (0xC0 ≤ c.toNat ∧ c.toNat ≤ 0xFF ∧ c.toNat ≠ 0xD7 ∧ c.toNat ≠ 0xF7))

/-- Membership in the character class of the claim, [A-Za-z0-9_-], by code
point: upper case letters 65 to 90, lower case 97 to 122, digits 48 to 57,
underscore 95 and dash 45. -/
def ascii_safe (c : Char) : Bool :=
  decide ((65 ≤ c.toNat ∧ c.toNat ≤ 90) ∨ (97 ≤ c.toNat ∧ c.toNat ≤ 122) ∨
    (48 ≤ c.toNat ∧ c.toNat ≤ 57) ∨ c.toNat = 95 ∨ c.toNat = 45)

/-- Identifier sanitization of BaseWatcher._generate_filename (line 134):
keep a character when it is alphanumeric or a dash or an underscore,
otherwise replace it by an underscore.  The alnum parameter stands for
Python str.isalnum, passed as an oracle. -/
def sanitize_id (alnum : Char → Bool) (ident : String) : String :=
  String.mk (ident.toList.map
    (fun c => if alnum c || c == '-' || c == '_' then c else '_'))

/-- BaseWatcher._generate_filename (lines 121 to 135), with the isalnum
oracle and the timestamp string passed in; the first argument carries the
file type marker, named prefix in the source. -/
def generate_filename (alnum : Char → Bool) (pfx ident ts : String) : String :=
  pfx ++ "_" ++ sanitize_id alnum ident ++ "_" ++ ts ++ ".md"

/-! ## Lemmas and claim theorems -/

/-! ## Lemmas about the scan loop -/
theorem set_mtime_name (g : Nat → Nat) (e : Entry) : (set_mtime g e).name = e.name := rfl

theorem set_mtime_suffix (g : Nat → Nat) (e : Entry) : (set_mtime g e).suffix = e.suffix := rfl

theorem set_mtime_path (g : Nat → Nat) (e : Entry) : (set_mtime g e).path = e.path := rfl

theorem set_mtime_md5 (g : Nat → Nat) (e : Entry) : (set_mtime g e).md5_hash = e.md5_hash := rfl

theorem set_mtime_is_file (g : Nat → Nat) (e : Entry) : (set_mtime g e).is_file = e.is_file := rfl

theorem mkChangeRec_set_mtime (g : Nat → Nat) (e : Entry) :
    mkChangeRec (set_mtime g e) = mkChangeRec e := rfl

/-- The scan loop never touches the stored fingerprint of a path that is
not among the scanned entries. -/
theorem scan_files_store_other (p : String) :
    ∀ (es : List Entry) (m : HashStore), p ∉ es.map Entry.path →
      (scan_files es m).2 p = m p := by
  intro es
  induction es with
  | nil => intro m _; rfl
  | cons e es ih =>
    intro m hp
    have hpe : p ≠ e.path := by intro h; exact hp (by simp [h])
    have hpes : p ∉ es.map Entry.path := by intro h; exact hp (by simp [h])
    simp only [scan_files]
    split
    · exact ih m hpes
    · split
      · exact ih m hpes
      · split
        · rw [ih _ hpes]
          simp [store_set, hpe]
        · exact ih m hpes

/-- A scan against a fresh store emits nothing and leaves the store as is. -/
theorem scan_files_of_fresh :
    ∀ (es : List Entry) (m : HashStore), fresh m es → scan_files es m = ([], m) := by
  intro es
  induction es with
  | nil => intro m _; rfl
  | cons e es ih =>
    intro m h
    have htail : fresh m es := fun x hx => h x (List.mem_cons_of_mem _ hx)
    by_cases hskip : (startsWithDot e.name || (e.suffix == ".tmp")) = true
    · simp only [scan_files, hskip, if_true]
      exact ih m htail
    · have hge : (startsWithDot e.name || (e.suffix == ".tmp")) = false :=
        Bool.not_eq_true _ ▸ (Bool.eq_false_iff.mpr (fun hc => hskip hc))
      by_cases hmd : (e.md5_hash == "") = true
      · simp only [scan_files, hge, hmd, Bool.false_eq_true, if_false, if_true]
        exact ih m htail
      · have hne : e.md5_hash ≠ "" := by
          intro hc; exact hmd (by simp [hc])
        have heq := h e (List.mem_cons_self e es) hge hne
        simp only [scan_files, hge, Bool.false_eq_true, if_false,
          Bool.not_eq_true _ ▸ Bool.eq_false_iff.mpr (fun hc => hmd hc), heq,
          bne_self_eq_false]
        exact ih m htail

/-- After one scan, the resulting store is fresh for the scanned entries,
provided the entry paths are distinct. -/
theorem scan_files_fresh_after :
    ∀ (es : List Entry) (m : HashStore), (es.map Entry.path).Nodup →
      fresh ((scan_files es m).2) es := by
  intro es
  induction es with
  | nil => intro m _ x hx; cases hx
  | cons e es ih =>
    intro m hnd
    have hpe : e.path ∉ es.map Entry.path := by
      simp only [List.map_cons, List.nodup_cons] at hnd; exact hnd.1
    have hndt : (es.map Entry.path).Nodup := by
      simp only [List.map_cons, List.nodup_cons] at hnd; exact hnd.2
    intro x hx hg hh
    rcases List.mem_cons.mp hx with rfl | hxs
    · -- the head entry: its path ends up mapped to its current hash
      by_cases hskip : (startsWithDot x.name || (x.suffix == ".tmp")) = true
      · rw [hg] at hskip; cases hskip
      · have hge : (startsWithDot x.name || (x.suffix == ".tmp")) = false := hg
        by_cases hmd : (x.md5_hash == "") = true
        · exact absurd (by simpa using hmd) hh
        · by_cases hcmp : (m x.path != some x.md5_hash) = true
          · simp only [scan_files, hge, Bool.false_eq_true, if_false,
              Bool.not_eq_true _ ▸ Bool.eq_false_iff.mpr (fun hc => hmd hc), hcmp, if_true]
            rw [scan_files_store_other _ _ _ hpe]
            simp [store_set]
          · have heq : m x.path = some x.md5_hash := by
              have := Bool.not_eq_true _ ▸ Bool.eq_false_iff.mpr (fun hc => hcmp hc)
              simpa [bne_eq_false_iff_eq] using this
            simp only [scan_files, hge, Bool.false_eq_true, if_false,
              Bool.not_eq_true _ ▸ Bool.eq_false_iff.mpr (fun hc => hmd hc), heq,
              bne_self_eq_false]
            rw [scan_files_store_other _ _ _ hpe]
            exact heq
    · -- a tail entry: reduce to the induction hypothesis for the store
      -- produced by the head step
      by_cases hskip : (startsWithDot e.name || (e.suffix == ".tmp")) = true
      · simp only [scan_files, hskip, if_true]
        exact ih m hndt x hxs hg hh
      · have hge : (startsWithDot e.name || (e.suffix == ".tmp")) = false :=
          Bool.not_eq_true _ ▸ Bool.eq_false_iff.mpr (fun hc => hskip hc)
        by_cases hmd : (e.md5_hash == "") = true
        · simp only [scan_files, hge, Bool.false_eq_true, if_false, hmd, if_true]
          exact ih m hndt x hxs hg hh
        · by_cases hcmp : (m e.path != some e.md5_hash) = true
          · simp only [scan_files, hge, Bool.false_eq_true, if_false,
              Bool.not_eq_true _ ▸ Bool.eq_false_iff.mpr (fun hc => hmd hc), hcmp, if_true]
            exact ih _ hndt x hxs hg hh
          · simp only [scan_files, hge, Bool.false_eq_true, if_false,
              Bool.not_eq_true _ ▸ Bool.eq_false_iff.mpr (fun hc => hmd hc),
              Bool.not_eq_true _ ▸ Bool.eq_false_iff.mpr (fun hc => hcmp hc)]
            exact ih m hndt x hxs hg hh

/-- Every emitted change record carries the path of some scanned entry. -/
theorem scan_files_out_sub :
    ∀ (es : List Entry) (m : HashStore) (r : ChangeRec), r ∈ (scan_files es m).1 →
      r.file_path ∈ es.map Entry.path := by
  intro es
  induction es with
  | nil => intro m r hr; cases hr
  | cons e es ih =>
    intro m r hr
    simp only [scan_files] at hr
    split at hr
    · exact List.mem_cons_of_mem _ (ih m r hr)
    · split at hr
      · exact List.mem_cons_of_mem _ (ih m r hr)
      · split at hr
        · rcases List.mem_cons.mp hr with rfl | hr2
          · simp [mkChangeRec]
          · exact List.mem_cons_of_mem _ (ih _ r hr2)
        · exact List.mem_cons_of_mem _ (ih m r hr)

/-- Core characterization: a surviving entry of a path-distinct listing is
reported by the scan exactly when the store holds no fingerprint for its
path or a differing one. -/
theorem scan_files_mem_iff (e : Entry) :
    ∀ (es : List Entry) (m : HashStore), (es.map Entry.path).Nodup → e ∈ es →
      (startsWithDot e.name || (e.suffix == ".tmp")) = false → e.md5_hash ≠ "" →
      ((e.path ∈ (scan_files es m).1.map ChangeRec.file_path) ↔
        m e.path ≠ some e.md5_hash) := by
  intro es
  induction es with
  | nil => intro m _ he; cases he
  | cons f es ih =>
    intro m hnd he hg hh
    have hpf : f.path ∉ es.map Entry.path := by
      simp only [List.map_cons, List.nodup_cons] at hnd; exact hnd.1
    have hndt : (es.map Entry.path).Nodup := by
      simp only [List.map_cons, List.nodup_cons] at hnd; exact hnd.2
    rcases List.mem_cons.mp he with rfl | hes
    · -- the entry under scrutiny is the head of the listing
      have hmd : (e.md5_hash == "") = false := beq_eq_false_iff_ne.mpr hh
      by_cases hcmp : (m e.path != some e.md5_hash) = true
      · simp only [scan_files, hg, Bool.false_eq_true, if_false, hmd, hcmp, if_true,
          List.map_cons]
        constructor
        · intro _; exact bne_iff_ne.mp hcmp
        · intro _
          exact List.mem_cons.mpr (Or.inl rfl)
      · have hcf : (m e.path != some e.md5_hash) = false := by
          cases hb : (m e.path != some e.md5_hash) with
          | false => rfl
          | true => exact absurd hb hcmp
        have heq : m e.path = some e.md5_hash := bne_eq_false_iff_eq.mp hcf
        simp only [scan_files, hg, Bool.false_eq_true, if_false, hmd, hcf]
        constructor
        · intro hmem
          rcases List.mem_map.mp hmem with ⟨r, hr, hrp⟩
          have hsub := scan_files_out_sub es m r hr
          rw [hrp] at hsub
          exact absurd hsub hpf
        · intro hne; exact absurd heq hne
    · -- the entry under scrutiny sits in the tail of the listing
      have hep : e.path ∈ es.map Entry.path := List.mem_map_of_mem _ hes
      have hne : e.path ≠ f.path := by intro hc; rw [hc] at hep; exact hpf hep
      cases hskip : (startsWithDot f.name || (f.suffix == ".tmp")) with
      | true =>
        simp only [scan_files, hskip, if_true]
        exact ih m hndt hes hg hh
      | false =>
        cases hmd : (f.md5_hash == "") with
        | true =>
          simp only [scan_files, hskip, Bool.false_eq_true, if_false, hmd, if_true]
          exact ih m hndt hes hg hh
        | false =>
          cases hcmp : (m f.path != some f.md5_hash) with
          | true =>
            simp only [scan_files, hskip, Bool.false_eq_true, if_false, hmd, hcmp, if_true,
              List.map_cons]
            have hmk : (mkChangeRec f).file_path = f.path := rfl
            rw [List.mem_cons, hmk]
            have hst : store_set m f.path f.md5_hash e.path = m e.path := by
              simp [store_set, hne]
            constructor
            · intro hor
              rcases hor with hc | hmem
              · exact absurd hc hne
              · rw [← hst]
                exact (ih _ hndt hes hg hh).mp hmem
            · intro hx
              rw [← hst] at hx
              exact Or.inr ((ih _ hndt hes hg hh).mpr hx)
          | false =>
            simp only [scan_files, hskip, Bool.false_eq_true, if_false, hmd, hcmp]
            exact ih m hndt hes hg hh

/-- Scanning ignores modification times entirely. -/
theorem scan_files_set_mtime (g : Nat → Nat) :
    ∀ (es : List Entry) (m : HashStore),
      scan_files (es.map (set_mtime g)) m = scan_files es m := by
  intro es
  induction es with
  | nil => intro m; rfl
  | cons e es ih =>
    intro m
    simp only [List.map_cons, scan_files, set_mtime_name, set_mtime_suffix, set_mtime_path,
      set_mtime_md5, mkChangeRec_set_mtime, ih]

/-- Filtering to regular files commutes with a change of modification times. -/
theorem filter_is_file_set_mtime (g : Nat → Nat) :
    ∀ dir : List Entry,
      (dir.map (set_mtime g)).filter (fun f => f.is_file) =
        (dir.filter (fun f => f.is_file)).map (set_mtime g) := by
  intro dir
  induction dir with
  | nil => rfl
  | cons e es ih =>
    simp only [List.map_cons, List.filter_cons, set_mtime_is_file, ih]
    by_cases hf : e.is_file = true
    · simp [hf]
    · simp [hf]

/-! ## Claim theorems for the filesystem watcher -/
/-- C1: a regular, non hidden, non temporary file of the drop folder whose
hash computes successfully is reported as changed by check_for_updates
exactly when no fingerprint is stored for its path or the stored
fingerprint differs from the computed one; and the result of
check_for_updates is unchanged under any alteration of the modification
times, so a metadata only change triggers no detection. -/
theorem fsw_changed_iff_fingerprint (dir : List Entry) (m : HashStore) (e : Entry)
    (g : Nat → Nat)
    (hnd : (dir.map Entry.path).Nodup) (he : e ∈ dir) (hfile : e.is_file = true)
    (hhid : startsWithDot e.name = false) (htmp : (e.suffix == ".tmp") = false)
    (hhash : e.md5_hash ≠ "") :
    ((e.path ∈ (check_for_updates dir m).1.map ChangeRec.file_path) ↔
      m e.path ≠ some e.md5_hash)
    ∧ check_for_updates (dir.map (set_mtime g)) m = check_for_updates dir m := by
  constructor
  · have hf : e ∈ dir.filter (fun f => f.is_file) := List.mem_filter.mpr ⟨he, hfile⟩
    have hsub : ((dir.filter (fun f => f.is_file)).map Entry.path).Sublist
        (dir.map Entry.path) :=
      List.Sublist.map Entry.path (List.filter_sublist dir)
    have hnd2 := List.Nodup.sublist hsub hnd
    have hg : (startsWithDot e.name || (e.suffix == ".tmp")) = false := by
      rw [hhid, htmp]; rfl
    exact scan_files_mem_iff e _ m hnd2 hf hg hhash
  · unfold check_for_updates
    rw [filter_is_file_set_mtime, scan_files_set_mtime]

theorem fsw_changed_iff_fingerprint_witness :
    (([wEntryA, wEntryB].map Entry.path).Nodup ∧ wEntryA ∈ [wEntryA, wEntryB] ∧
      wEntryA.is_file = true ∧ startsWithDot wEntryA.name = false ∧
      (wEntryA.suffix == ".tmp") = false ∧ wEntryA.md5_hash ≠ "") ∧
    ((wEntryA.path ∈ (check_for_updates [wEntryA, wEntryB] emptyStore).1.map
        ChangeRec.file_path) ↔ emptyStore wEntryA.path ≠ some wEntryA.md5_hash) ∧
    check_for_updates ([wEntryA, wEntryB].map (set_mtime (fun t => t + 7))) emptyStore =
      check_for_updates [wEntryA, wEntryB] emptyStore :=
  ⟨⟨by decide, by decide, by decide, by decide, by decide, by decide⟩,
    fsw_changed_iff_fingerprint [wEntryA, wEntryB] emptyStore wEntryA (fun t => t + 7)
      (by decide) (by decide) (by decide) (by decide) (by decide) (by decide)⟩

/-- C3: scanning a directory twice with unchanged file bytes yields an
empty list of detected changes on the second run, because the first run
records the fingerprint of every file it emits. -/
theorem fsw_scan_idempotent (dir : List Entry) (m : HashStore)
    (hnd : (dir.map Entry.path).Nodup) :
    (check_for_updates dir ((check_for_updates dir m).2)).1 = [] := by
  unfold check_for_updates
  have hsub : ((dir.filter (fun f => f.is_file)).map Entry.path).Sublist
      (dir.map Entry.path) :=
    List.Sublist.map Entry.path (List.filter_sublist dir)
  have hnd2 := List.Nodup.sublist hsub hnd
  rw [scan_files_of_fresh _ _ (scan_files_fresh_after _ m hnd2)]

theorem fsw_scan_idempotent_witness :
    ([wEntryA, wEntryB].map Entry.path).Nodup ∧
    (check_for_updates [wEntryA, wEntryB]
      ((check_for_updates [wEntryA, wEntryB] emptyStore).2)).1 = [] :=
  ⟨by decide, fsw_scan_idempotent [wEntryA, wEntryB] emptyStore (by decide)⟩

/-- C5: priority detection agrees with the spec reading, a case
insensitive substring match of filename plus preview against the three
ordered keyword tiers where the first matching tier wins and no match
defaults to low; in particular urgent_invoice.txt classifies high even
though the medium keyword invoice also occurs in it. -/
theorem fsw_priority_spec :
    (∀ filename content : String,
        detect_priority filename content = spec_priority filename content)
    ∧ detect_priority "urgent_invoice.txt" "" = "high"
    ∧ strContains (lowerStr ("urgent_invoice.txt" ++ " " ++ "")) "invoice" = true := by
  refine ⟨?_, by decide, by decide⟩
  intro fn c
  have e1 : ∀ T : String,
      (priority_keywords_high.any fun k => strContains T (lowerStr k)) =
        (priority_keywords_high.any fun k => strContains T k) := fun T => rfl
  have e2 : ∀ T : String,
      (priority_keywords_medium.any fun k => strContains T (lowerStr k)) =
        (priority_keywords_medium.any fun k => strContains T k) := fun T => rfl
  simp only [detect_priority, spec_priority]
  rw [e1, e2]
  by_cases hA : (priority_keywords_high.any fun k =>
      strContains (lowerStr (fn ++ " " ++ c)) k) = true
  · simp [hA]
  · simp only [Bool.not_eq_true] at hA
    by_cases hB : (priority_keywords_medium.any fun k =>
        strContains (lowerStr (fn ++ " " ++ c)) k) = true
    · simp [hA, hB]
    · simp only [Bool.not_eq_true] at hB
      simp [hA, hB]

/-! ## Lemmas about the orchestrator cycle -/
theorem process_name (cf so : Bool) (now : String) (f : MDFile) :
    (process_with_claude cf so now f).file.name = f.name := by
  cases cf <;> cases so <;> simp [process_with_claude, mark_in_progress] <;> split <;> rfl

theorem process_ok (cf so : Bool) (now : String) (f : MDFile) :
    (process_with_claude cf so now f).ok = (cf && so) := by
  cases cf <;> cases so <;> rfl

/-- Relocating one record touches only the approved and done folders and
the log. -/
theorem move_to_done_fields (now : String) (st : OrchState) (n : String) :
    (move_to_done now st n).needs_action = st.needs_action
    ∧ (move_to_done now st n).plans = st.plans
    ∧ (move_to_done now st n).rejected = st.rejected
    ∧ (move_to_done now st n).processed_files = st.processed_files := by
  unfold move_to_done
  split <;> exact ⟨rfl, rfl, rfl, rfl⟩

/-- The approved folder sweep touches only the approved and done folders
and the log. -/
theorem move_fold_fields (now : String) :
    ∀ (L : List String) (st : OrchState),
      (L.foldl (move_to_done now) st).needs_action = st.needs_action
      ∧ (L.foldl (move_to_done now) st).plans = st.plans
      ∧ (L.foldl (move_to_done now) st).rejected = st.rejected
      ∧ (L.foldl (move_to_done now) st).processed_files = st.processed_files := by
  intro L
  induction L with
  | nil => intro st; exact ⟨rfl, rfl, rfl, rfl⟩
  | cons n L ih =>
    intro st
    have h1 := move_to_done_fields now st n
    have h2 := ih (move_to_done now st n)
    simp only [List.foldl_cons]
    exact ⟨h2.1.trans h1.1, h2.2.1.trans h1.2.1, h2.2.2.1.trans h1.2.2.1,
      h2.2.2.2.trans h1.2.2.2⟩

/-- Sweeping the full approved snapshot empties the approved folder and
appends exactly its records to the done folder, in order. -/
theorem move_fold_spec (now : String) :
    ∀ (L : List String) (st : OrchState), st.approved = L → L.Nodup →
      (∀ n ∈ L, n ∉ st.done) →
      (L.foldl (move_to_done now) st).approved = []
      ∧ (L.foldl (move_to_done now) st).done = st.done ++ L := by
  intro L
  induction L with
  | nil =>
    intro st ha _ _
    simp only [List.foldl_nil, List.append_nil]
    exact ⟨ha, trivial⟩
  | cons n L ih =>
    intro st ha hnd hdis
    have hmem : n ∈ st.approved := by rw [ha]; exact List.mem_cons_self n L
    have hnd1 : n ∉ L := (List.nodup_cons.mp hnd).1
    have hndt : L.Nodup := (List.nodup_cons.mp hnd).2
    have hdn : n ∉ st.done := hdis n (List.mem_cons_self n L)
    have hstep : (move_to_done now st n).approved = L ∧
        (move_to_done now st n).done = st.done ++ [n] := by
      unfold move_to_done
      rw [if_pos hmem, ha]
      constructor
      · simp [List.erase_cons_head]
      · simp [hdn]
    have hrest := ih (move_to_done now st n)
      hstep.1 hndt
      (by
        intro x hx
        rw [hstep.2]
        simp only [List.mem_append, List.mem_singleton]
        rintro (hxd | rfl)
        · exact hdis x (List.mem_cons_of_mem _ hx) hxd
        · exact hnd1 hx)
    simp only [List.foldl_cons]
    refine ⟨hrest.1, ?_⟩
    rw [hrest.2, hstep.2, List.append_assoc]
    rfl

theorem process_file_of_ok (cf so : Bool) (now : String) (f : MDFile)
    (h : (cf && so) = true) :
    (process_with_claude cf so now f).file = mark_in_progress f := by
  cases cf <;> cases so <;> first | rfl | cases h

theorem process_file_of_fail (cf so : Bool) (now : String) (f : MDFile)
    (h : (cf && so) = false) :
    (process_with_claude cf so now f).file = f := by
  cases cf <;> cases so <;> first | rfl | cases h

theorem find?_of_mem_nodup (f : MDFile) :
    ∀ l : List MDFile, (l.map MDFile.name).Nodup → f ∈ l →
      l.find? (fun g => g.name == f.name) = some f := by
  intro l
  induction l with
  | nil => intro _ h; cases h
  | cons g l ih =>
    intro hnd hm
    have hnd' : g.name ∉ l.map MDFile.name ∧ (l.map MDFile.name).Nodup := by
      rw [List.map_cons, List.nodup_cons] at hnd; exact hnd
    rcases List.mem_cons.mp hm with rfl | hm2
    · rw [List.find?_cons_of_pos _ (by simp)]
    · have hfn : f.name ∈ l.map MDFile.name := List.mem_map_of_mem _ hm2
      have hne : g.name ≠ f.name := fun hc => hnd'.1 (hc ▸ hfn)
      rw [List.find?_cons_of_neg _ (by simp [hne])]
      exact ih hnd'.2 hm2

theorem find?_map_subst_hit (n : String) (x f : MDFile) (hx : x.name = n) :
    ∀ l : List MDFile, l.find? (fun g => g.name == n) = some f →
      (l.map (fun g => if g.name = n then x else g)).find? (fun g => g.name == n) =
        some x := by
  intro l
  induction l with
  | nil => intro h; simp at h
  | cons g l ih =>
    intro h
    by_cases hg : g.name = n
    · simp only [List.map_cons, if_pos hg]
      rw [List.find?_cons_of_pos _ (by simp [hx])]
    · have h2 : l.find? (fun g => g.name == n) = some f := by
        rw [List.find?_cons_of_neg _ (by simp [hg])] at h
        exact h
      simp only [List.map_cons, if_neg hg]
      rw [List.find?_cons_of_neg _ (by simp [hg])]
      exact ih h2

theorem find?_map_subst_other (m n : String) (x : MDFile) (hx : x.name = m)
    (hmn : m ≠ n) :
    ∀ l : List MDFile,
      (l.map (fun g => if g.name = m then x else g)).find? (fun g => g.name == n) =
        l.find? (fun g => g.name == n) := by
  intro l
  induction l with
  | nil => rfl
  | cons g l ih =>
    by_cases hg : g.name = m
    · simp only [List.map_cons, if_pos hg]
      rw [List.find?_cons_of_neg _ (by simp [hx, hmn]),
        List.find?_cons_of_neg _ (by simp [hg, hmn])]
      exact ih
    · simp only [List.map_cons, if_neg hg]
      by_cases hgn : g.name = n
      · rw [List.find?_cons_of_pos _ (by simp [hgn]),
          List.find?_cons_of_pos _ (by simp [hgn])]
      · rw [List.find?_cons_of_neg _ (by simp [hgn]),
          List.find?_cons_of_neg _ (by simp [hgn])]
        exact ih

theorem map_subst_names (n : String) (x : MDFile) (hx : x.name = n) :
    ∀ l : List MDFile,
      (l.map (fun g => if g.name = n then x else g)).map MDFile.name =
        l.map MDFile.name := by
  intro l
  induction l with
  | nil => rfl
  | cons g l ih =>
    by_cases hg : g.name = n
    · simp only [List.map_cons, if_pos hg, ih]
      rw [hx, hg]
    · simp only [List.map_cons, if_neg hg, ih]

/-- Processing one pending record touches only the landing folder records
(in place, preserving names), the plans, the logs and the processed set,
and the processed set only grows. -/
theorem cycle_step_fields (cf : Bool) (sok : String → Bool) (now : String)
    (st : OrchState) (f : MDFile) :
    (cycle_step cf sok now st f).approved = st.approved
    ∧ (cycle_step cf sok now st f).rejected = st.rejected
    ∧ (cycle_step cf sok now st f).done = st.done
    ∧ (cycle_step cf sok now st f).needs_action.map MDFile.name =
        st.needs_action.map MDFile.name
    ∧ (∀ x ∈ st.processed_files, x ∈ (cycle_step cf sok now st f).processed_files) := by
  have hname := process_name cf (sok f.name) now f
  simp only [cycle_step]
  by_cases hm : f.name ∈ st.processed_files
  · rw [if_pos hm]
    exact ⟨rfl, rfl, rfl, rfl, fun x hx => hx⟩
  · rw [if_neg hm]
    by_cases hok : (process_with_claude cf (sok f.name) now f).ok = true
    · rw [if_pos hok]
      refine ⟨rfl, rfl, rfl, map_subst_names _ _ hname _, ?_⟩
      intro x hx
      exact List.mem_append_left _ hx
    · rw [if_neg hok]
      exact ⟨rfl, rfl, rfl, map_subst_names _ _ hname _, fun x hx => hx⟩

/-- The pending sweep touches only the landing records in place, the
plans, the logs and the processed set, and the processed set only grows. -/
theorem cycle_fold_fields (cf : Bool) (sok : String → Bool) (now : String) :
    ∀ (L : List MDFile) (st : OrchState),
      (L.foldl (cycle_step cf sok now) st).approved = st.approved
      ∧ (L.foldl (cycle_step cf sok now) st).rejected = st.rejected
      ∧ (L.foldl (cycle_step cf sok now) st).done = st.done
      ∧ (L.foldl (cycle_step cf sok now) st).needs_action.map MDFile.name =
          st.needs_action.map MDFile.name
      ∧ (∀ x ∈ st.processed_files,
          x ∈ (L.foldl (cycle_step cf sok now) st).processed_files) := by
  intro L
  induction L with
  | nil => intro st; exact ⟨rfl, rfl, rfl, rfl, fun x hx => hx⟩
  | cons h L ih =>
    intro st
    have h1 := cycle_step_fields cf sok now st h
    have h2 := ih (cycle_step cf sok now st h)
    simp only [List.foldl_cons]
    exact ⟨h2.1.trans h1.1, h2.2.1.trans h1.2.1, h2.2.2.1.trans h1.2.2.1,
      h2.2.2.2.1.trans h1.2.2.2.1,
      fun x hx => h2.2.2.2.2 x (h1.2.2.2.2 x hx)⟩

/-- The pending sweep leaves a record whose name is not among the swept
records untouched, and neither adds nor removes that name from the
processed set. -/
theorem cycle_fold_other (cf : Bool) (sok : String → Bool) (now : String) (n : String) :
    ∀ (L : List MDFile) (st : OrchState), n ∉ L.map MDFile.name →
      ((L.foldl (cycle_step cf sok now) st).needs_action.find? (fun g => g.name == n) =
        st.needs_action.find? (fun g => g.name == n))
      ∧ ((n ∈ (L.foldl (cycle_step cf sok now) st).processed_files) ↔
          n ∈ st.processed_files) := by
  intro L
  induction L with
  | nil => intro st _; exact ⟨rfl, Iff.rfl⟩
  | cons h L ih =>
    intro st hn
    have hhn : h.name ≠ n := by
      intro hc; exact hn (by simp [hc])
    have hnL : n ∉ L.map MDFile.name := by
      intro hc; exact hn (by simp [hc])
    have hstep : ((cycle_step cf sok now st h).needs_action.find? (fun g => g.name == n) =
          st.needs_action.find? (fun g => g.name == n))
        ∧ ((n ∈ (cycle_step cf sok now st h).processed_files) ↔
            n ∈ st.processed_files) := by
      have hname := process_name cf (sok h.name) now h
      simp only [cycle_step]
      by_cases hm : h.name ∈ st.processed_files
      · rw [if_pos hm]; exact ⟨rfl, Iff.rfl⟩
      · rw [if_neg hm]
        by_cases hok : (process_with_claude cf (sok h.name) now h).ok = true
        · rw [if_pos hok]
          refine ⟨find?_map_subst_other h.name n _ hname hhn _, ?_⟩
          simp only [List.mem_append, List.mem_singleton]
          constructor
          · rintro (hx | rfl)
            · exact hx
            · exact absurd rfl hhn
          · intro hx; exact Or.inl hx
        · rw [if_neg hok]
          exact ⟨find?_map_subst_other h.name n _ hname hhn _, Iff.rfl⟩
    have hrest := ih (cycle_step cf sok now st h) hnL
    simp only [List.foldl_cons]
    exact ⟨hrest.1.trans hstep.1, hrest.2.trans hstep.2⟩

/-- Behaviour of the pending sweep on one pending record of the snapshot:
on success of the external step its status header is advanced and its name
enters the processed set; on failure the record is untouched and its name
stays outside the processed set. -/
theorem cycle_fold_hit (cf : Bool) (sok : String → Bool) (now : String) (f : MDFile) :
    ∀ (L : List MDFile) (st : OrchState),
      (L.map MDFile.name).Nodup → f ∈ L → f.name ∉ st.processed_files →
      st.needs_action.find? (fun g => g.name == f.name) = some f →
      (((cf && sok f.name) = true →
        ((L.foldl (cycle_step cf sok now) st).needs_action.find?
            (fun g => g.name == f.name) = some (mark_in_progress f))
        ∧ f.name ∈ (L.foldl (cycle_step cf sok now) st).processed_files)
      ∧ ((cf && sok f.name) = false →
        ((L.foldl (cycle_step cf sok now) st).needs_action.find?
            (fun g => g.name == f.name) = some f)
        ∧ f.name ∉ (L.foldl (cycle_step cf sok now) st).processed_files)) := by
  intro L
  induction L with
  | nil => intro st _ hf; cases hf
  | cons h L ih =>
    intro st hnd hf hp hfind
    have hnd' : h.name ∉ L.map MDFile.name ∧ (L.map MDFile.name).Nodup := by
      rw [List.map_cons, List.nodup_cons] at hnd; exact hnd
    simp only [List.foldl_cons]
    rcases List.mem_cons.mp hf with rfl | hfL
    · -- the turn of the record under scrutiny
      have hname := process_name cf (sok f.name) now f
      have hok := process_ok cf (sok f.name) now f
      have hfind1 := find?_map_subst_hit f.name
        (process_with_claude cf (sok f.name) now f).file f hname
        st.needs_action hfind
      constructor
      · intro hcs
        have hokt : (process_with_claude cf (sok f.name) now f).ok = true := by
          rw [hok, hcs]
        have hstep1 : (cycle_step cf sok now st f).needs_action.find?
            (fun g => g.name == f.name) = some (mark_in_progress f) := by
          simp only [cycle_step, if_neg hp, if_pos hokt]
          rw [hfind1, process_file_of_ok cf (sok f.name) now f hcs]
        have hstep2 : f.name ∈ (cycle_step cf sok now st f).processed_files := by
          simp only [cycle_step, if_neg hp, if_pos hokt]
          simp
        have hrest := cycle_fold_other cf sok now f.name L
          (cycle_step cf sok now st f) hnd'.1
        exact ⟨hrest.1.trans hstep1, hrest.2.mpr hstep2⟩
      · intro hcs
        have hokf : ¬ (process_with_claude cf (sok f.name) now f).ok = true := by
          rw [hok, hcs]; exact Bool.false_ne_true
        have hstep1 : (cycle_step cf sok now st f).needs_action.find?
            (fun g => g.name == f.name) = some f := by
          simp only [cycle_step, if_neg hp, if_neg hokf]
          rw [hfind1, process_file_of_fail cf (sok f.name) now f hcs]
        have hstep2 : f.name ∉ (cycle_step cf sok now st f).processed_files := by
          simp only [cycle_step, if_neg hp, if_neg hokf]
          exact hp
        have hrest := cycle_fold_other cf sok now f.name L
          (cycle_step cf sok now st f) hnd'.1
        exact ⟨hrest.1.trans hstep1, fun hc => hstep2 (hrest.2.mp hc)⟩
    · -- another record is processed first
      have hfn : f.name ∈ L.map MDFile.name := List.mem_map_of_mem _ hfL
      have hhf : h.name ≠ f.name := fun hc => hnd'.1 (hc ▸ hfn)
      have hname := process_name cf (sok h.name) now h
      have hstep : (cycle_step cf sok now st h).needs_action.find?
            (fun g => g.name == f.name) = some f
          ∧ f.name ∉ (cycle_step cf sok now st h).processed_files := by
        simp only [cycle_step]
        by_cases hm : h.name ∈ st.processed_files
        · rw [if_pos hm]; exact ⟨hfind, hp⟩
        · rw [if_neg hm]
          by_cases hok : (process_with_claude cf (sok h.name) now h).ok = true
          · rw [if_pos hok]
            refine ⟨(find?_map_subst_other h.name f.name _ hname hhf _).trans hfind, ?_⟩
            simp only [List.mem_append, List.mem_singleton]
            rintro (hx | hx)
            · exact hp hx
            · exact hhf hx.symm
          · rw [if_neg hok]
            exact ⟨(find?_map_subst_other h.name f.name _ hname hhf _).trans hfind, hp⟩
      exact ih (cycle_step cf sok now st h) hnd'.2 hfL hstep.2 hstep.1

/-! ## Claim theorems for the orchestrator workflow -/
/-- C4: in one orchestration cycle, a pending landing record outside the
processed set is handled as follows: when the external step succeeds its
status header becomes in_progress and its path enters the processed set;
names already in the processed set are never removed; when the external
tool is missing or the step fails the record is left untouched and stays
outside the processed set, so a later cycle retries it. -/
theorem orch_pending_processing (cf : Bool) (sok : String → Bool) (now : String)
    (s : OrchState) (f : MDFile)
    (hnd : (s.needs_action.map MDFile.name).Nodup)
    (hf : f ∈ s.needs_action) (hp : f.name ∉ s.processed_files)
    (hst : f.status = "pending") :
    ((cf && sok f.name) = true →
      (run_cycle cf sok now s).needs_action.find? (fun g => g.name == f.name) =
        some { f with status := "in_progress" }
      ∧ f.name ∈ (run_cycle cf sok now s).processed_files)
    ∧ (∀ x ∈ s.processed_files, x ∈ (run_cycle cf sok now s).processed_files)
    ∧ ((cf && sok f.name) = false →
      (run_cycle cf sok now s).needs_action.find? (fun g => g.name == f.name) = some f
      ∧ f.name ∉ (run_cycle cf sok now s).processed_files) := by
  have hfind := find?_of_mem_nodup f s.needs_action hnd hf
  have hhit := cycle_fold_hit cf sok now f s.needs_action s hnd hf hp hfind
  have hcfields := cycle_fold_fields cf sok now s.needs_action s
  set s1 := s.needs_action.foldl (cycle_step cf sok now) s with hs1def
  have hmv := move_fold_fields now s1.approved s1
  have hmark : mark_in_progress f = { f with status := "in_progress" } := by
    unfold mark_in_progress; rw [if_pos hst]
  have hrc : run_cycle cf sok now s = s1.approved.foldl (move_to_done now) s1 := rfl
  refine ⟨?_, ?_, ?_⟩
  · intro hcs
    have h1 := hhit.1 hcs
    rw [hrc]
    constructor
    · rw [hmv.1, ← hmark]; exact h1.1
    · rw [hmv.2.2.2]; exact h1.2
  · intro x hx
    rw [hrc, hmv.2.2.2]
    exact hcfields.2.2.2.2 x hx
  · intro hcs
    have h1 := hhit.2 hcs
    rw [hrc]
    constructor
    · rw [hmv.1]; exact h1.1
    · rw [hmv.2.2.2]; exact h1.2

theorem orch_pending_processing_witness :
    ((wState.needs_action.map MDFile.name).Nodup ∧ wRecA ∈ wState.needs_action ∧
      wRecA.name ∉ wState.processed_files ∧ wRecA.status = "pending") ∧
    (((true && (fun _ : String => true) wRecA.name) = true →
      (run_cycle true (fun _ => true) "t0" wState).needs_action.find?
          (fun g => g.name == wRecA.name) = some { wRecA with status := "in_progress" }
      ∧ wRecA.name ∈ (run_cycle true (fun _ => true) "t0" wState).processed_files)
    ∧ (∀ x ∈ wState.processed_files,
        x ∈ (run_cycle true (fun _ => true) "t0" wState).processed_files)
    ∧ ((true && (fun _ : String => true) wRecA.name) = false →
      (run_cycle true (fun _ => true) "t0" wState).needs_action.find?
          (fun g => g.name == wRecA.name) = some wRecA
      ∧ wRecA.name ∉ (run_cycle true (fun _ => true) "t0" wState).processed_files)) :=
  ⟨⟨by decide, by decide, by decide, by decide⟩,
    orch_pending_processing true (fun _ => true) "t0" wState wRecA
      (by decide) (by decide) (by decide) (by decide)⟩

/-- C2: across one orchestration cycle the at most one location invariant
is preserved, the approved folder is emptied with each of its records
relocated into done, a relocation removes the record from its source
folder, and no record ever moves to a smaller workflow rank. -/
theorem orch_record_location_invariants (cf : Bool) (sok : String → Bool) (now : String)
    (s : OrchState) (hinv : OrchInv s) :
    OrchInv (run_cycle cf sok now s)
    ∧ (run_cycle cf sok now s).approved = []
    ∧ (∀ n ∈ s.approved, n ∈ (run_cycle cf sok now s).done)
    ∧ (∀ n, n ∉ (move_to_done now s n).approved)
    ∧ (∀ n r r', loc_rank s n = some r →
        loc_rank (run_cycle cf sok now s) n = some r' → r ≤ r') := by
  have hinv' : (landing_names s ++ (s.approved ++ (s.rejected ++ s.done))).Nodup := by
    simpa only [OrchInv, all_names, List.append_assoc] using hinv
  have hd1 := (List.nodup_append.mp hinv').2.1
  have hd2 := List.nodup_append.mp hd1
  have hAnd : s.approved.Nodup := hd2.1
  have hARD := hd2.2.2
  have hAR : ∀ n ∈ s.approved, n ∉ s.rejected :=
    fun n hn hr => hARD hn (List.mem_append_left _ hr)
  have hAD : ∀ n ∈ s.approved, n ∉ s.done :=
    fun n hn hd => hARD hn (List.mem_append_right _ hd)
  have hcfields := cycle_fold_fields cf sok now s.needs_action s
  set s1 := s.needs_action.foldl (cycle_step cf sok now) s with hs1def
  have hA1 : s1.approved = s.approved := hcfields.1
  have hR1 : s1.rejected = s.rejected := hcfields.2.1
  have hD1 : s1.done = s.done := hcfields.2.2.1
  have hL1 : landing_names s1 = landing_names s := hcfields.2.2.2.1
  have hmv := move_fold_spec now s1.approved s1 rfl (by rw [hA1]; exact hAnd)
    (by intro n hn; rw [hD1]; exact hAD n (hA1 ▸ hn))
  have hmvf := move_fold_fields now s1.approved s1
  have hrc : run_cycle cf sok now s = s1.approved.foldl (move_to_done now) s1 := rfl
  set s2 := s1.approved.foldl (move_to_done now) s1 with hs2def
  have hA2 : s2.approved = [] := hmv.1
  have hD2 : s2.done = s.done ++ s.approved := by rw [hmv.2, hD1, hA1]
  have hR2 : s2.rejected = s.rejected := hmvf.2.2.1.trans hR1
  have hL2 : landing_names s2 = landing_names s := by
    unfold landing_names
    rw [hmvf.1]
    exact hL1
  refine ⟨?_, by rw [hrc]; exact hA2, ?_, ?_, ?_⟩
  · -- the location invariant is preserved
    rw [hrc]
    have hnames : all_names s2 =
        landing_names s ++ ([] ++ (s.rejected ++ (s.done ++ s.approved))) := by
      simp only [all_names, List.append_assoc]
      rw [hL2, hA2, hR2, hD2]
    have hperm : (landing_names s ++ (s.approved ++ (s.rejected ++ s.done))).Perm
        (landing_names s ++ ([] ++ (s.rejected ++ (s.done ++ s.approved)))) := by
      apply List.Perm.append_left
      simp only [List.nil_append]
      have hpc : (s.approved ++ (s.rejected ++ s.done)).Perm
          ((s.rejected ++ s.done) ++ s.approved) := List.perm_append_comm
      rwa [List.append_assoc] at hpc
    show OrchInv s2
    unfold OrchInv
    rw [hnames]
    exact hperm.nodup hinv'
  · -- every approved record is relocated into done
    intro n hn
    rw [hrc, hD2]
    exact List.mem_append_right _ hn
  · -- a relocation removes the record from the approved folder
    intro n
    unfold move_to_done
    by_cases hn : n ∈ s.approved
    · rw [if_pos hn]
      intro hc
      exact ((List.Nodup.mem_erase_iff hAnd).mp hc).1 rfl
    · rw [if_neg hn]
      exact hn
  · -- workflow ranks never decrease
    intro n r r' h1 h2
    rw [hrc] at h2
    by_cases hL : n ∈ landing_names s
    · have hr : r = 0 := by
        unfold loc_rank at h1
        rw [if_pos hL] at h1
        exact (Option.some.inj h1).symm
      rw [hr]
      exact Nat.zero_le r'
    · by_cases hA : n ∈ s.approved
      · have hr : r = 2 := by
          unfold loc_rank at h1
          rw [if_neg hL, if_pos hA] at h1
          exact (Option.some.inj h1).symm
        have hnL2 : n ∉ landing_names s2 := by rw [hL2]; exact hL
        have hnA2 : n ∉ s2.approved := by rw [hA2]; exact List.not_mem_nil n
        have hnR2 : n ∉ s2.rejected := by rw [hR2]; exact hAR n hA
        have hnD2 : n ∈ s2.done := by rw [hD2]; exact List.mem_append_right _ hA
        have hr' : r' = 4 := by
          unfold loc_rank at h2
          rw [if_neg hnL2, if_neg hnA2, if_neg hnR2, if_pos hnD2] at h2
          exact (Option.some.inj h2).symm
        rw [hr, hr']
        omega
      · by_cases hR : n ∈ s.rejected
        · have hr : r = 3 := by
            unfold loc_rank at h1
            rw [if_neg hL, if_neg hA, if_pos hR] at h1
            exact (Option.some.inj h1).symm
          have hnL2 : n ∉ landing_names s2 := by rw [hL2]; exact hL
          have hnA2 : n ∉ s2.approved := by rw [hA2]; exact List.not_mem_nil n
          have hnR2 : n ∈ s2.rejected := by rw [hR2]; exact hR
          have hr' : r' = 3 := by
            unfold loc_rank at h2
            rw [if_neg hnL2, if_neg hnA2, if_pos hnR2] at h2
            exact (Option.some.inj h2).symm
          rw [hr, hr']
        · by_cases hD : n ∈ s.done
          · have hr : r = 4 := by
              unfold loc_rank at h1
              rw [if_neg hL, if_neg hA, if_neg hR, if_pos hD] at h1
              exact (Option.some.inj h1).symm
            have hnL2 : n ∉ landing_names s2 := by rw [hL2]; exact hL
            have hnA2 : n ∉ s2.approved := by rw [hA2]; exact List.not_mem_nil n
            have hnR2 : n ∉ s2.rejected := by rw [hR2]; exact hR
            have hnD2 : n ∈ s2.done := by rw [hD2]; exact List.mem_append_left _ hD
            have hr' : r' = 4 := by
              unfold loc_rank at h2
              rw [if_neg hnL2, if_neg hnA2, if_neg hnR2, if_pos hnD2] at h2
              exact (Option.some.inj h2).symm
            rw [hr, hr']
          · exfalso
            unfold loc_rank at h1
            rw [if_neg hL, if_neg hA, if_neg hR, if_neg hD] at h1
            cases h1

theorem orch_record_location_invariants_witness :
    OrchInv wState ∧
    (OrchInv (run_cycle true (fun _ => true) "t0" wState)
    ∧ (run_cycle true (fun _ => true) "t0" wState).approved = []
    ∧ (∀ n ∈ wState.approved, n ∈ (run_cycle true (fun _ => true) "t0" wState).done)
    ∧ (∀ n, n ∉ (move_to_done "t0" wState n).approved)
    ∧ (∀ n r r', loc_rank wState n = some r →
        loc_rank (run_cycle true (fun _ => true) "t0" wState) n = some r' → r ≤ r')) :=
  ⟨by unfold OrchInv; decide,
    orch_record_location_invariants true (fun _ => true) "t0" wState
      (by unfold OrchInv; decide)⟩

/-- C6: appending to the daily log keeps every existing entry at its
position, in order, and adds exactly one entry at the end carrying the
fields timestamp, action_type, actor, parameters and result; a missing or
unparsable daily file yields a fresh one element sequence. -/
theorem orch_log_append (logs : List LogEntry) (now aty : String)
    (details : List (String × String)) (result : String) :
    log_action (some logs) now aty details result =
      logs ++ [log_entry now aty details result]
    ∧ (∀ e ∈ logs, e ∈ log_action (some logs) now aty details result)
    ∧ (∀ i, i < logs.length →
        (log_action (some logs) now aty details result)[i]? = logs[i]?)
    ∧ (log_action (some logs) now aty details result).length = logs.length + 1
    ∧ (log_action (some logs) now aty details result).getLast? =
        some { timestamp := now, action_type := aty, actor := "orchestrator",
               parameters := details, result := result }
    ∧ log_action none now aty details result = [log_entry now aty details result] := by
  refine ⟨rfl, ?_, ?_, ?_, ?_, rfl⟩
  · intro e he
    exact List.mem_append_left _ he
  · intro i hi
    show (logs ++ [log_entry now aty details result])[i]? = logs[i]?
    exact List.getElem?_append_left hi
  · simp [log_action]
  · show (logs ++ [log_entry now aty details result]).getLast? = _
    rw [List.getLast?_concat]
    rfl

theorem orch_log_append_witness :
    log_action (some wLogs) "t2" "claude_process" [("file", "y.md")] "success" =
      wLogs ++ [log_entry "t2" "claude_process" [("file", "y.md")] "success"]
    ∧ (log_action (some wLogs) "t2" "claude_process" [("file", "y.md")] "success").length =
        wLogs.length + 1 :=
  ⟨(orch_log_append wLogs "t2" "claude_process" [("file", "y.md")] "success").1,
    (orch_log_append wLogs "t2" "claude_process" [("file", "y.md")] "success").2.2.2.1⟩

theorem assoc_get_set (k : String) (v : VaultDoc) :
    ∀ files, assoc_get (assoc_set files k v) k = some v := by
  intro files
  induction files with
  | nil => simp [assoc_set, assoc_get]
  | cons p rest ih =>
    obtain ⟨k2, v2⟩ := p
    by_cases h : k2 = k
    · simp [assoc_set, h, assoc_get]
    · simp [assoc_set, h, assoc_get, ih]

/-- C7 counterexample: on a filesystem without the vault scripts
directory, neither save path creates that directory or writes its file;
each merely swallows the failure and returns with the filesystem
unchanged, refuting the claimed side effect of creating the enclosing
directory when absent.  Moreover the fingerprint store save of
FileSystemWatcher._save_file_hashes stores a document with no
last_updated timestamp field, refuting the claimed timestamp for that
save path. -/
theorem save_state_no_mkdir_counterexample :
    (save_state { dirs := [], files := [] } "/vault" ["a.md"] "t0").1 =
      { dirs := [], files := [] }
    ∧ "/vault" ++ "/scripts" ∉
        (save_state { dirs := [], files := [] } "/vault" ["a.md"] "t0").1.dirs
    ∧ assoc_get (save_state { dirs := [], files := [] } "/vault" ["a.md"] "t0").1.files
        (("/vault" ++ "/scripts") ++ "/" ++ "orchestrator_state.json") = none
    ∧ (save_file_hashes { dirs := [], files := [] } "/vault"
        [("/drop/a.txt", "aaaa")]).1 = { dirs := [], files := [] }
    ∧ assoc_get (save_file_hashes wFS "/vault" [("/drop/a.txt", "aaaa")]).1.files
        (("/vault" ++ "/scripts") ++ "/" ++ "filesystem_watcher_hashes.json") =
        some (VaultDoc.hashes [("/drop/a.txt", "aaaa")])
    ∧ has_timestamp (VaultDoc.hashes [("/drop/a.txt", "aaaa")]) = false := by
  refine ⟨rfl, ?_, rfl, rfl, by decide, rfl⟩
  intro h
  cases h

/-- C7 amended: each save operation writes the full in-memory mapping,
overwriting any previous stored state, the processed set stores together
with a last-updated timestamp and the fingerprint store as the raw
mapping with no timestamp field; no save path creates the enclosing
directory, and with that directory absent the write simply fails and the
stored state stays untouched; every write failure is swallowed, so save
never raises and the process continues on in-memory state only. -/
theorem save_state_amended (fs : FS) (vault : String) (processed : List String)
    (now : String) (m : List (String × String)) :
    (save_state fs vault processed now).1.dirs = fs.dirs
    ∧ (save_file_hashes fs vault m).1.dirs = fs.dirs
    ∧ ((vault ++ "/scripts") ∈ fs.dirs →
        assoc_get (save_state fs vault processed now).1.files
          ((vault ++ "/scripts") ++ "/" ++ "orchestrator_state.json") =
          some (VaultDoc.state processed now))
    ∧ ((vault ++ "/scripts") ∈ fs.dirs →
        assoc_get (save_file_hashes fs vault m).1.files
          ((vault ++ "/scripts") ++ "/" ++ "filesystem_watcher_hashes.json") =
          some (VaultDoc.hashes m)
        ∧ has_timestamp (VaultDoc.hashes m) = false)
    ∧ ((vault ++ "/scripts") ∉ fs.dirs →
        save_state fs vault processed now = (fs, false))
    ∧ ((vault ++ "/scripts") ∉ fs.dirs →
        save_file_hashes fs vault m = (fs, false)) := by
  unfold save_state save_file_hashes write_file
  by_cases hd : (vault ++ "/scripts") ∈ fs.dirs
  · rw [if_pos hd, if_pos hd]
    exact ⟨rfl, rfl, fun _ => assoc_get_set _ _ fs.files,
      fun _ => ⟨assoc_get_set _ _ fs.files, rfl⟩,
      fun hc => absurd hd hc, fun hc => absurd hd hc⟩
  · rw [if_neg hd, if_neg hd]
    exact ⟨rfl, rfl, fun hc => absurd hc hd, fun hc => absurd hc hd,
      fun _ => rfl, fun _ => rfl⟩

theorem save_state_amended_witness :
    ("/vault" ++ "/scripts") ∈ wFS.dirs
    ∧ (save_state wFS "/vault" ["a.md"] "t1").1.dirs = wFS.dirs
    ∧ assoc_get (save_state wFS "/vault" ["a.md"] "t1").1.files
        (("/vault" ++ "/scripts") ++ "/" ++ "orchestrator_state.json") =
        some (VaultDoc.state ["a.md"] "t1")
    ∧ assoc_get (save_file_hashes wFS "/vault" [("/drop/a.txt", "aaaa")]).1.files
        (("/vault" ++ "/scripts") ++ "/" ++ "filesystem_watcher_hashes.json") =
        some (VaultDoc.hashes [("/drop/a.txt", "aaaa")]) :=
  ⟨by decide,
    (save_state_amended wFS "/vault" ["a.md"] "t1" [("/drop/a.txt", "aaaa")]).1,
    (save_state_amended wFS "/vault" ["a.md"] "t1"
      [("/drop/a.txt", "aaaa")]).2.2.1 (by decide),
    ((save_state_amended wFS "/vault" ["a.md"] "t1"
      [("/drop/a.txt", "aaaa")]).2.2.2.1 (by decide)).1⟩

/-- C8: rendering substitutes every occurrence of a recognized placeholder
with its computed value and leaves unrecognized placeholders untouched:
with three md files in the needs action folder, a template holding the
pending count placeholder twice and an unknown placeholder renders with
both occurrences replaced by 3 and the unknown placeholder intact, and
the output contains the text Pending: 3; a missing template file is a
no-op, never an exception. -/
theorem dashboard_render :
    (∀ (running : Bool) (inbox needs_action plans approved : List FolderEntry)
        (ct cw : Nat) (ns ni : String),
        update_dashboard none running inbox needs_action plans approved ct cw ns ni = none)
    ∧ update_dashboard (some wTemplate) true [] wNeedsAction3 [] [] 0 0 "s" "i" =
        some "Pending: 3 of 3; \x7b\x7bunknown_key\x7d\x7d"
    ∧ strContains "Pending: 3 of 3; \x7b\x7bunknown_key\x7d\x7d" "Pending: 3" = true
    ∧ count_files_in_folder wNeedsAction3 = 3 := by
  refine ⟨fun _ _ _ _ _ _ _ _ _ => rfl, by decide, by decide, by decide⟩

/-- C10: the dashboard substitutes the same value for the pending approval
count and the approved count, both being the md file count of the same
approved folder, and likewise the same value for the pending count and the
needs action count, both being the md file count of the needs action
folder. -/
theorem dashboard_counts_equal (running : Bool)
    (inbox needs_action plans approved : List FolderEntry)
    (ct cw : Nat) (ns ni : String) :
    (dashboard_replacements running inbox needs_action plans approved ct cw ns ni).lookup
        "\x7b\x7bpending_approval_count\x7d\x7d" =
      some (toString (count_files_in_folder approved))
    ∧ (dashboard_replacements running inbox needs_action plans approved ct cw ns ni).lookup
        "\x7b\x7bapproved_count\x7d\x7d" =
      some (toString (count_files_in_folder approved))
    ∧ (dashboard_replacements running inbox needs_action plans approved ct cw ns ni).lookup
        "\x7b\x7bpending_count\x7d\x7d" =
      some (toString (count_files_in_folder needs_action))
    ∧ (dashboard_replacements running inbox needs_action plans approved ct cw ns ni).lookup
        "\x7b\x7bneeds_action_count\x7d\x7d" =
      some (toString (count_files_in_folder needs_action)) :=
  ⟨rfl, rfl, rfl, rfl⟩

theorem pyIsAlnumLatin1_ascii (c : Char) (h : c.toNat < 128)
    (ha : pyIsAlnumLatin1 c = true) : ascii_safe c = true := by
  simp only [pyIsAlnumLatin1, decide_eq_true_eq] at ha
  simp only [ascii_safe, decide_eq_true_eq]
  omega

/-- C9 counterexample: the one character identifier e acute, code point
0xE9, where the Latin-1 table coincides with Python isalnum, survives the
sanitization unchanged because Python isalnum is Unicode aware, yet that
character lies outside the class [A-Za-z0-9_-]; so the claim that every
character of the sanitized identifier lies in [A-Za-z0-9_-] fails. -/
theorem generate_filename_nonascii_counterexample :
    sanitize_id pyIsAlnumLatin1 "é" = "é"
    ∧ generate_filename pyIsAlnumLatin1 "FILE" "é" "2026-02-03_04-05-06" =
        "FILE_é_2026-02-03_04-05-06.md"
    ∧ 'é' ∈ (sanitize_id pyIsAlnumLatin1 "é").toList
    ∧ ascii_safe 'é' = false
    ∧ pyIsAlnumLatin1 'é' = true := by
  refine ⟨by decide, by decide, by decide, by decide, by decide⟩

/-- C9 amended: for every isalnum oracle, in particular the Unicode aware
Python isalnum itself, the generated filename has the shape
PREFIX_sanitizedidentifier_timestamp.md, where sanitization keeps exactly
the characters accepted by the oracle together with dash and underscore
and maps every other character to underscore, so every character of the
sanitized identifier is accepted by the oracle or is a dash or an
underscore; and whenever the oracle accepts only [A-Za-z0-9] on the
ASCII range, as Python isalnum does, an identifier of ASCII characters
sanitizes into characters of the class [A-Za-z0-9_-] of the claim. -/
theorem generate_filename_amended (alnum : Char → Bool) (pfx ident ts : String) :
    generate_filename alnum pfx ident ts =
      pfx ++ "_" ++ sanitize_id alnum ident ++ "_" ++ ts ++ ".md"
    ∧ (∀ c ∈ (sanitize_id alnum ident).toList,
        alnum c = true ∨ c = '-' ∨ c = '_')
    ∧ ((∀ c : Char, c.toNat < 128 → alnum c = true → ascii_safe c = true) →
        (∀ c ∈ ident.toList, c.toNat < 128) →
        ∀ c ∈ (sanitize_id alnum ident).toList, ascii_safe c = true) := by
  refine ⟨rfl, ?_, ?_⟩
  · intro c hc
    have hc' : c ∈ ident.toList.map
        (fun c => if alnum c || c == '-' || c == '_' then c else '_') := hc
    rcases List.mem_map.mp hc' with ⟨c0, _, rfl⟩
    by_cases h : (alnum c0 || c0 == '-' || c0 == '_') = true
    · rw [if_pos h]
      simpa [Bool.or_eq_true, beq_iff_eq, or_assoc] using h
    · rw [if_neg h]
      right; right; rfl
  · intro halnum hascii c hc
    have hc' : c ∈ ident.toList.map
        (fun c => if alnum c || c == '-' || c == '_' then c else '_') := hc
    rcases List.mem_map.mp hc' with ⟨c0, hc0, rfl⟩
    by_cases h : (alnum c0 || c0 == '-' || c0 == '_') = true
    · rw [if_pos h]
      rcases (by simpa [Bool.or_eq_true, beq_iff_eq, or_assoc] using h :
          alnum c0 = true ∨ c0 = '-' ∨ c0 = '_') with ha | rfl | rfl
      · exact halnum c0 (hascii c0 hc0) ha
      · decide
      · decide
    · rw [if_neg h]
      decide

theorem generate_filename_amended_witness :
    (∀ c ∈ ("a b.txt").toList, c.toNat < 128)
    ∧ (∀ c ∈ (sanitize_id pyIsAlnumLatin1 "a b.txt").toList, ascii_safe c = true) :=
  ⟨by decide,
    (generate_filename_amended pyIsAlnumLatin1 "FILE" "a b.txt" "ts").2.2
      (fun c h ha => pyIsAlnumLatin1_ascii c h ha) (by decide)⟩
